import Mathlib

/-!
Shallow embedding of the hit-to-particle attributor
t0::MCParticleHitMatching::produce
(src/larana/T0Finder/MCParticleHitMatching_module.cc, lines 106-189).

Floating-point values (float/double) are modelled as rationals; the
std::unordered_map containers are modelled as association lists in
insertion order — the C++ iteration order of an unordered map is
unspecified, and every property proved below is insensitive to the order
in which the emission loop visits the per-track accumulator entries.
-/

/-- One backtracker contribution record, as delivered by
bt->HitToTrackID (line 139): a geant4 track id, the deposited energy,
and the number of electrons. -/
structure TrackIDE where
  trackID : Int
  energy : ℚ
  numElectrons : ℚ
deriving DecidableEq, Repr

instance : Inhabited TrackIDE := ⟨⟨0, 0, 0⟩⟩

/-- Per-track accumulator value (struct TrackIDEinfo, lines 81-84);
operator[] value-initialises missing entries, so defaults are zero. -/
structure TrackIDEinfo where
  E : ℚ
  NumElectrons : ℚ
deriving DecidableEq, Repr

/-- Reading fTrkIDECollector[k] without inserting: the stored value, or
the value-initialised (zero) default. -/
def lookupColl (m : List (Int × TrackIDEinfo)) (k : Int) : TrackIDEinfo :=
  match m with
  | [] => ⟨0, 0⟩
  | kv :: rest => if kv.1 = k then kv.2 else lookupColl rest k

/-- Writing through fTrkIDECollector[k]: update the entry for k in
place, inserting a zero-initialised one at the end when absent. -/
def updateColl (m : List (Int × TrackIDEinfo)) (k : Int)
    (f : TrackIDEinfo → TrackIDEinfo) : List (Int × TrackIDEinfo) :=
  match m with
  | [] => [(k, f ⟨0, 0⟩)]
  | kv :: rest =>
    if kv.1 = k then (kv.1, f kv.2) :: rest else kv :: updateColl rest k f

/-- The per-hit state of the accumulation loop: the collector map
(fTrkIDECollector, line 85) together with the running registers
maxe/tote/maxtrkid/maxn/totn/maxntrkid (lines 116-122), all reset at
the start of each hit (lines 141-143). -/
structure AccState where
  coll : List (Int × TrackIDEinfo)
  maxe : ℚ
  tote : ℚ
  maxtrkid : Int
  maxn : ℚ
  totn : ℚ
  maxntrkid : Int
deriving Repr

/-- The reset state of lines 141-143: empty collector, maxima at -1,
totals at 0, dominant track ids at -1. -/
def initAcc : AccState := ⟨[], -1, 0, -1, -1, 0, -1⟩

/-- One iteration of the loop over trkide_list (lines 146-156): add the
record energy and electron count into the collector and the totals, and
update the two running strictly-greater maxima. The trkid_lookup update
of lines 159-166 is modelled separately (see trkid_lookup below). -/
def accumStep (s : AccState) (t : TrackIDE) : AccState :=
  let coll1 := updateColl s.coll t.trackID (fun v => ⟨v.E + t.energy, v.NumElectrons⟩)
  let newE := (lookupColl coll1 t.trackID).E
  let coll2 := updateColl coll1 t.trackID (fun v => ⟨v.E, v.NumElectrons + t.numElectrons⟩)
  let newN := (lookupColl coll2 t.trackID).NumElectrons
  { coll := coll2
    maxe := if s.maxe < newE then newE else s.maxe
    tote := s.tote + t.energy
    maxtrkid := if s.maxe < newE then t.trackID else s.maxtrkid
    maxn := if s.maxn < newN then newN else s.maxn
    totn := s.totn + t.numElectrons
    maxntrkid := if s.maxn < newN then t.trackID else s.maxntrkid }

/-- The whole accumulation loop over a hit's contribution records
(lines 141-168). -/
def accumHit (ts : List TrackIDE) : AccState := ts.foldl accumStep initAcc

/-- A truth particle; only its track id matters to this module
(simb::MCParticle::TrackId, line 162). -/
structure MCParticle where
  TrackId : Int
deriving DecidableEq, Repr

instance : Inhabited MCParticle := ⟨⟨0⟩⟩

/-- Pure semantics of the memoised trkid_lookup cache (lines 124 and
159-166): the first position in mcpartList whose TrackId equals k, or
-1 when no particle carries k. The std::unordered_map cache only
memoises this first-match scan within one produce call, over a fixed
particle list, so the cache is observationally this function. -/
def trkid_lookup (ps : List MCParticle) (k : Int) : Int :=
  match ps with
  | [] => -1
  | p :: rest =>
    if p.TrackId = k then 0
    else if trkid_lookup rest k = -1 then -1 else trkid_lookup rest k + 1

/-- anab::BackTrackerHitMatchingData as filled at lines 177-182. -/
structure BackTrackerHitMatchingData where
  ideFraction : ℚ
  isMaxIDE : Bool
  ideNFraction : ℚ
  isMaxIDEN : Bool
  energy : ℚ
  numElectrons : ℚ
deriving DecidableEq, Repr

/-- One addSingle call (line 183): the hit position, the resolved
particle position, the contributing track id it was emitted for, and
the metadata. -/
structure OutputEntry where
  hitIndex : Nat
  mcpartIndex : Int
  trackId : Int
  bthmd : BackTrackerHitMatchingData
deriving DecidableEq, Repr

/-- The emission loop over fTrkIDECollector (lines 173-184): entries
whose track id resolves to no particle (mcpart_i == -1) are skipped;
the rest are emitted with fractions over the per-hit totals and the
dominance flags. -/
def emitHit (ps : List MCParticle) (i_h : Nat) (s : AccState) : List OutputEntry :=
  s.coll.filterMap (fun t =>
    let mcpart_i := trkid_lookup ps t.1
    if mcpart_i = -1 then none
    else some
      { hitIndex := i_h
        mcpartIndex := mcpart_i
        trackId := t.1
        bthmd :=
          { ideFraction := t.2.E / s.tote
            isMaxIDE := decide (t.1 = s.maxtrkid)
            ideNFraction := t.2.NumElectrons / s.totn
            isMaxIDEN := decide (t.1 = s.maxntrkid)
            energy := t.2.E
            numElectrons := t.2.NumElectrons } })

/-- The body of the loop over hits (lines 137-186) for the hit at
position i_h, where hitToTrackID is the backtracker collaborator view
of bt->HitToTrackID by hit position. -/
def processHit (ps : List MCParticle) (hitToTrackID : Nat → List TrackIDE)
    (i_h : Nat) : List OutputEntry :=
  emitHit ps i_h (accumHit (hitToTrackID i_h))

/-- The event as produce sees it: the real-data flag, the particle
list, the hit collection handle (none when invalid, otherwise the
number of hits — hits carry no data here and are referenced by position), and the
backtracker collaborator. -/
structure Event where
  isRealData : Bool
  mcpartList : List MCParticle
  hitListHandle : Option Nat
  hitToTrackID : Nat → List TrackIDE

/-- t0::MCParticleHitMatching::produce (lines 106-189). A some result
is the association collection put into the event at line 188; none is
an early return that puts nothing (line 108 for real data, line 131
for an invalid hit handle). -/
def produce (evt : Event) : Option (List OutputEntry) :=
  if evt.isRealData then none
  else
    match evt.hitListHandle with
    | none => none
    | some nHits =>
      some ((List.range nHits).flatMap (processHit evt.mcpartList evt.hitToTrackID))

/-- The summed value of one field over the records of one track id
(the final content of the accumulator for that track id). -/
def sumFor (val : TrackIDE → ℚ) (ts : List TrackIDE) (k : Int) : ℚ :=
  ((ts.filter (fun t => t.trackID == k)).map val).sum

/-- The total of one field over all records of a hit (tote/totn). -/
def totalFor (val : TrackIDE → ℚ) (ts : List TrackIDE) : ℚ :=
  (ts.map val).sum

/-- The checkpoint after record i: the record's track id paired with
that track id's accumulated sum just after record i was added. -/
def cpVal (val : TrackIDE → ℚ) (ts : List TrackIDE) (i : Nat) : Int × ℚ :=
  ((ts.getD i default).trackID,
    sumFor val (ts.take (i + 1)) (ts.getD i default).trackID)

/-- All checkpoints of a hit, in record order. -/
def cpList (val : TrackIDE → ℚ) (ts : List TrackIDE) : List (Int × ℚ) :=
  (List.range ts.length).map (cpVal val ts)

/-- The strictly-greater running-maximum step of lines 150 and 153-156,
acting on a (current max, current dominant track id) pair. -/
def smaxStep (p : ℚ × Int) (c : Int × ℚ) : ℚ × Int :=
  if p.1 < c.2 then (c.2, c.1) else p

example : (accumHit [⟨2, 2, 2⟩, ⟨1, 3, 3⟩, ⟨2, 1, 1⟩]).maxtrkid = 1 := by
  norm_num [accumHit, accumStep, initAcc, updateColl, lookupColl]

example : sumFor (·.energy) [⟨2, 2, 2⟩, ⟨1, 3, 3⟩, ⟨2, 1, 1⟩] 2 = 3 := by
  norm_num [sumFor]

example :
    (emitHit [⟨2⟩] 0 (accumHit [⟨1, 5, 5⟩, ⟨2, 1, 1⟩])).length = 1 := by
  norm_num [emitHit, accumHit, accumStep, initAcc, updateColl, lookupColl, trkid_lookup]
  simp only [List.filterMap_cons]
  norm_num

/-! Association-list collector lemmas. -/

theorem lookupColl_updateColl_self (m : List (Int × TrackIDEinfo)) (k : Int)
    (f : TrackIDEinfo → TrackIDEinfo) :
    lookupColl (updateColl m k f) k = f (lookupColl m k) := by
  induction m with
  | nil => simp [lookupColl, updateColl]
  | cons kv rest ih =>
    by_cases h : kv.1 = k
    · simp [lookupColl, updateColl, h]
    · simp [lookupColl, updateColl, h, ih]

theorem lookupColl_updateColl_ne (m : List (Int × TrackIDEinfo)) (k j : Int)
    (f : TrackIDEinfo → TrackIDEinfo) (h : j ≠ k) :
    lookupColl (updateColl m k f) j = lookupColl m j := by
  induction m with
  | nil => simp [lookupColl, updateColl, Ne.symm h]
  | cons kv rest ih =>
    by_cases hk : kv.1 = k
    · have hne : kv.1 ≠ j := by rw [hk]; exact Ne.symm h
      simp [lookupColl, updateColl, hk, hne, Ne.symm h]
    · by_cases hj : kv.1 = j
      · simp [lookupColl, updateColl, hk, hj, h]
      · simp [lookupColl, updateColl, hk, hj, ih]

theorem map_fst_updateColl (m : List (Int × TrackIDEinfo)) (k : Int)
    (f : TrackIDEinfo → TrackIDEinfo) :
    (updateColl m k f).map Prod.fst =
      if k ∈ m.map Prod.fst then m.map Prod.fst else m.map Prod.fst ++ [k] := by
  induction m with
  | nil => simp [updateColl]
  | cons kv rest ih =>
    by_cases hk : kv.1 = k
    · simp [updateColl, hk]
    · by_cases hm : k ∈ rest.map Prod.fst <;>
        simp [updateColl, hk, ih, hm, Ne.symm hk]

theorem lookupColl_eq_of_mem (m : List (Int × TrackIDEinfo))
    (hnd : (m.map Prod.fst).Nodup) (kv : Int × TrackIDEinfo) (h : kv ∈ m) :
    lookupColl m kv.1 = kv.2 := by
  induction m with
  | nil => cases h
  | cons hd rest ih =>
    rcases List.mem_cons.mp h with heq | hmem
    · subst heq
      simp [lookupColl]
    · have hnd2 : (hd.1 :: rest.map Prod.fst).Nodup := by
        rw [List.map_cons] at hnd; exact hnd
      have hne : hd.1 ≠ kv.1 := by
        intro he
        exact (List.nodup_cons.mp hnd2).1 (he ▸ List.mem_map_of_mem Prod.fst hmem)
      simp [lookupColl, hne]
      exact ih (List.nodup_cons.mp hnd2).2 hmem

/-! sumFor and totalFor lemmas. -/

theorem sumFor_nil (val : TrackIDE → ℚ) (k : Int) : sumFor val [] k = 0 := rfl

theorem sumFor_cons (val : TrackIDE → ℚ) (t : TrackIDE) (ts : List TrackIDE) (k : Int) :
    sumFor val (t :: ts) k = (if t.trackID = k then val t else 0) + sumFor val ts k := by
  by_cases h : t.trackID = k <;> simp [sumFor, h]

theorem sumFor_append (val : TrackIDE → ℚ) (l l2 : List TrackIDE) (k : Int) :
    sumFor val (l ++ l2) k = sumFor val l k + sumFor val l2 k := by
  simp [sumFor, List.filter_append]

theorem sumFor_nonneg (val : TrackIDE → ℚ) (ts : List TrackIDE) (k : Int)
    (h : ∀ t ∈ ts, 0 ≤ val t) : 0 ≤ sumFor val ts k := by
  apply List.sum_nonneg
  intro x hx
  obtain ⟨t, ht, rfl⟩ := List.mem_map.mp hx
  exact h t (List.mem_of_mem_filter ht)

theorem sumFor_eq_zero_of_not_mem (val : TrackIDE → ℚ) (ts : List TrackIDE) (k : Int)
    (h : k ∉ ts.map (·.trackID)) : sumFor val ts k = 0 := by
  have hfil : ts.filter (fun t => t.trackID == k) = [] := by
    rw [List.filter_eq_nil_iff]
    intro t ht
    simp only [beq_iff_eq]
    intro hk
    exact h (List.mem_map.mpr ⟨t, ht, hk⟩)
  simp [sumFor, hfil]

theorem sumFor_take_le (val : TrackIDE → ℚ) (ts : List TrackIDE) (m : Nat) (k : Int)
    (h : ∀ t ∈ ts, 0 ≤ val t) :
    sumFor val (ts.take m) k ≤ sumFor val ts k := by
  conv_rhs => rw [← List.take_append_drop m ts]
  rw [sumFor_append]
  have hd : 0 ≤ sumFor val (ts.drop m) k :=
    sumFor_nonneg _ _ _ (fun t ht => h t (List.drop_subset m ts ht))
  linarith

theorem totalFor_append (val : TrackIDE → ℚ) (l l2 : List TrackIDE) :
    totalFor val (l ++ l2) = totalFor val l + totalFor val l2 := by
  simp [totalFor]

/-! Characterisation of the accumulation loop. -/

theorem accumHit_append (l : List TrackIDE) (t : TrackIDE) :
    accumHit (l ++ [t]) = accumStep (accumHit l) t := by
  simp [accumHit, List.foldl_append]

theorem accumStep_coll (s : AccState) (t : TrackIDE) :
    (accumStep s t).coll =
      updateColl (updateColl s.coll t.trackID (fun v => ⟨v.E + t.energy, v.NumElectrons⟩))
        t.trackID (fun v => ⟨v.E, v.NumElectrons + t.numElectrons⟩) := rfl

theorem accumHit_tote (ts : List TrackIDE) :
    (accumHit ts).tote = totalFor (·.energy) ts := by
  induction ts using List.reverseRecOn with
  | nil => simp [accumHit, initAcc, totalFor]
  | append_singleton l t ih =>
    rw [accumHit_append]
    show (accumHit l).tote + t.energy = _
    rw [totalFor_append, ih]
    simp [totalFor]

theorem accumHit_totn (ts : List TrackIDE) :
    (accumHit ts).totn = totalFor (·.numElectrons) ts := by
  induction ts using List.reverseRecOn with
  | nil => simp [accumHit, initAcc, totalFor]
  | append_singleton l t ih =>
    rw [accumHit_append]
    show (accumHit l).totn + t.numElectrons = _
    rw [totalFor_append, ih]
    simp [totalFor]

theorem accumHit_lookup (ts : List TrackIDE) (k : Int) :
    lookupColl (accumHit ts).coll k =
      ⟨sumFor (·.energy) ts k, sumFor (·.numElectrons) ts k⟩ := by
  induction ts using List.reverseRecOn with
  | nil => simp [accumHit, initAcc, lookupColl, sumFor]
  | append_singleton l t ih =>
    rw [accumHit_append, accumStep_coll]
    by_cases hk : t.trackID = k
    · subst hk
      rw [lookupColl_updateColl_self, lookupColl_updateColl_self, ih]
      simp [sumFor_append, sumFor_cons, sumFor_nil]
    · rw [lookupColl_updateColl_ne _ _ _ _ (Ne.symm hk),
        lookupColl_updateColl_ne _ _ _ _ (Ne.symm hk), ih]
      simp [sumFor_append, sumFor_cons, sumFor_nil, hk]

theorem mem_map_fst_accumHit (ts : List TrackIDE) :
    ∀ k, k ∈ (accumHit ts).coll.map Prod.fst ↔ k ∈ ts.map (·.trackID) := by
  induction ts using List.reverseRecOn with
  | nil => intro k; simp [accumHit, initAcc]
  | append_singleton l t ih =>
    intro k
    rw [accumHit_append, accumStep_coll, map_fst_updateColl, map_fst_updateColl]
    by_cases hm : t.trackID ∈ (accumHit l).coll.map Prod.fst
    · have hml : t.trackID ∈ l.map (·.trackID) := (ih _).mp hm
      by_cases hkt : k = t.trackID
      · subst hkt
        simp [hm, ih, hml]
      · simp [hm, ih, hkt]
    · simp [hm, ih]

theorem nodup_map_fst_accumHit (ts : List TrackIDE) :
    ((accumHit ts).coll.map Prod.fst).Nodup := by
  induction ts using List.reverseRecOn with
  | nil => simp [accumHit, initAcc]
  | append_singleton l t ih =>
    rw [accumHit_append, accumStep_coll, map_fst_updateColl, map_fst_updateColl]
    by_cases hm : t.trackID ∈ (accumHit l).coll.map Prod.fst
    · simpa [hm] using ih
    · rw [if_neg hm]
      have hmem2 : t.trackID ∈ (accumHit l).coll.map Prod.fst ++ [t.trackID] := by simp
      rw [if_pos hmem2, List.nodup_append]
      refine ⟨ih, List.nodup_singleton _, ?_⟩
      intro a ha hb
      rw [List.mem_singleton] at hb
      subst hb
      exact hm ha

/-! The running strictly-greater maximum, via the checkpoint list. -/

theorem smaxStep_fst_le (p : ℚ × Int) (c : Int × ℚ) :
    p.1 ≤ (smaxStep p c).1 ∧ c.2 ≤ (smaxStep p c).1 := by
  unfold smaxStep
  split
  · exact ⟨le_of_lt (by assumption), le_refl _⟩
  · exact ⟨le_refl _, le_of_not_lt (by assumption)⟩

theorem smax_le_res (cs : List (Int × ℚ)) : ∀ p : ℚ × Int,
    p.1 ≤ (List.foldl smaxStep p cs).1 ∧
      ∀ c ∈ cs, c.2 ≤ (List.foldl smaxStep p cs).1 := by
  induction cs with
  | nil => exact fun p => ⟨le_refl _, by simp⟩
  | cons c cs ih =>
    intro p
    rw [List.foldl_cons]
    refine ⟨le_trans (smaxStep_fst_le p c).1 (ih (smaxStep p c)).1, ?_⟩
    intro d hd
    rcases List.mem_cons.mp hd with rfl | hd2
    · exact le_trans (smaxStep_fst_le p d).2 (ih (smaxStep p d)).1
    · exact (ih (smaxStep p c)).2 d hd2

theorem smax_attain (cs : List (Int × ℚ)) : ∀ p : ℚ × Int,
    (List.foldl smaxStep p cs = p ∧ ∀ c ∈ cs, c.2 ≤ p.1) ∨
    (p.1 < (List.foldl smaxStep p cs).1 ∧
      ∃ i, i < cs.length ∧
        (cs.getD i (0, 0)).1 = (List.foldl smaxStep p cs).2 ∧
        (cs.getD i (0, 0)).2 = (List.foldl smaxStep p cs).1 ∧
        ∀ j, j < i → (cs.getD j (0, 0)).2 < (List.foldl smaxStep p cs).1) := by
  induction cs with
  | nil => exact fun p => Or.inl ⟨rfl, by simp⟩
  | cons c cs ih =>
    intro p
    rw [List.foldl_cons]
    by_cases hc : p.1 < c.2
    · right
      have hstep : smaxStep p c = (c.2, c.1) := by unfold smaxStep; rw [if_pos hc]
      rw [hstep]
      rcases ih (c.2, c.1) with ⟨heq, _⟩ | ⟨hlt, i, hi, h1, h2, h3⟩
      · rw [heq]
        exact ⟨hc, 0, by simp, by simp, by simp, by omega⟩
      · refine ⟨lt_trans hc hlt, i + 1, by simp; omega, by simpa using h1,
          by simpa using h2, ?_⟩
        intro j hj
        cases j with
        | zero => simpa using hlt
        | succ j2 => simpa using h3 j2 (by omega)
    · have hstep : smaxStep p c = p := by unfold smaxStep; rw [if_neg hc]
      rw [hstep]
      rcases ih p with ⟨heq, hle⟩ | ⟨hlt, i, hi, h1, h2, h3⟩
      · refine Or.inl ⟨heq, ?_⟩
        intro d hd
        rcases List.mem_cons.mp hd with rfl | hd2
        · exact le_of_not_lt hc
        · exact hle d hd2
      · refine Or.inr ⟨hlt, i + 1, by simp; omega, by simpa using h1,
          by simpa using h2, ?_⟩
        intro j hj
        cases j with
        | zero => simpa using lt_of_le_of_lt (le_of_not_lt hc) hlt
        | succ j2 => simpa using h3 j2 (by omega)

theorem cpList_append (val : TrackIDE → ℚ) (l : List TrackIDE) (t : TrackIDE) :
    cpList val (l ++ [t]) =
      cpList val l ++ [(t.trackID, sumFor val (l ++ [t]) t.trackID)] := by
  unfold cpList
  rw [List.length_append, List.length_singleton, List.range_succ, List.map_append]
  congr 1
  · apply List.map_congr_left
    intro i hi
    rw [List.mem_range] at hi
    unfold cpVal
    rw [List.getD_append _ _ _ _ hi, List.take_append_of_le_length (by omega)]
  · have h1 : (l ++ [t]).getD l.length default = t := by
      rw [List.getD_append_right] <;> simp
    have h2 : (l ++ [t]).take (l.length + 1) = l ++ [t] := by
      apply List.take_of_length_le
      simp
    simp [cpVal, h1, h2]

theorem accumStep_max_pair (s : AccState) (t : TrackIDE) :
    ((accumStep s t).maxe, (accumStep s t).maxtrkid) =
      smaxStep (s.maxe, s.maxtrkid)
        (t.trackID, (lookupColl s.coll t.trackID).E + t.energy) := by
  by_cases h : s.maxe < (lookupColl s.coll t.trackID).E + t.energy
  · simp [accumStep, smaxStep, lookupColl_updateColl_self, h]
  · simp [accumStep, smaxStep, lookupColl_updateColl_self, h]

theorem accumStep_maxn_pair (s : AccState) (t : TrackIDE) :
    ((accumStep s t).maxn, (accumStep s t).maxntrkid) =
      smaxStep (s.maxn, s.maxntrkid)
        (t.trackID, (lookupColl s.coll t.trackID).NumElectrons + t.numElectrons) := by
  by_cases h : s.maxn < (lookupColl s.coll t.trackID).NumElectrons + t.numElectrons
  · simp [accumStep, smaxStep, lookupColl_updateColl_self, h]
  · simp [accumStep, smaxStep, lookupColl_updateColl_self, h]

theorem accumHit_maxE (ts : List TrackIDE) :
    ((accumHit ts).maxe, (accumHit ts).maxtrkid) =
      List.foldl smaxStep (-1, -1) (cpList (·.energy) ts) := by
  induction ts using List.reverseRecOn with
  | nil => simp [accumHit, initAcc, cpList]
  | append_singleton l t ih =>
    rw [accumHit_append, cpList_append, List.foldl_append, ← ih,
      accumStep_max_pair, accumHit_lookup]
    simp [sumFor_append, sumFor_cons, sumFor_nil]

theorem accumHit_maxN (ts : List TrackIDE) :
    ((accumHit ts).maxn, (accumHit ts).maxntrkid) =
      List.foldl smaxStep (-1, -1) (cpList (·.numElectrons) ts) := by
  induction ts using List.reverseRecOn with
  | nil => simp [accumHit, initAcc, cpList]
  | append_singleton l t ih =>
    rw [accumHit_append, cpList_append, List.foldl_append, ← ih,
      accumStep_maxn_pair, accumHit_lookup]
    simp [sumFor_append, sumFor_cons, sumFor_nil]

theorem sumFor_take_last (val : TrackIDE → ℚ) (ts : List TrackIDE) :
    ∀ k ∈ ts.map (·.trackID), ∃ i, i < ts.length ∧
      (ts.getD i default).trackID = k ∧
      sumFor val (ts.take (i + 1)) k = sumFor val ts k := by
  induction ts with
  | nil => simp
  | cons t ts ih =>
    intro k hk
    by_cases hmem : k ∈ ts.map (·.trackID)
    · obtain ⟨i, hi, h1, h2⟩ := ih k hmem
      refine ⟨i + 1, by simp [hi], by simpa using h1, ?_⟩
      rw [List.take_succ_cons, sumFor_cons, sumFor_cons, h2]
    · have hk2 : t.trackID = k := by
        rcases List.mem_map.mp hk with ⟨u, hu, hval⟩
        rcases List.mem_cons.mp hu with rfl | hu2
        · exact hval
        · exact absurd (List.mem_map.mpr ⟨u, hu2, hval⟩) hmem
      refine ⟨0, by simp, by simpa using hk2, ?_⟩
      rw [List.take_succ_cons, List.take_zero, sumFor_cons, sumFor_cons,
        sumFor_nil, sumFor_eq_zero_of_not_mem val ts k hmem]

theorem cpList_getD (val : TrackIDE → ℚ) (ts : List TrackIDE) (i : Nat)
    (hi : i < ts.length) :
    (cpList val ts).getD i (0, 0) = cpVal val ts i := by
  have hlen : i < (cpList val ts).length := by simpa [cpList] using hi
  rw [List.getD_eq_getElem _ _ hlen]
  simp [cpList]

theorem cpList_getD_mem (val : TrackIDE → ℚ) (ts : List TrackIDE) (i : Nat)
    (hi : i < ts.length) :
    (cpList val ts).getD i (0, 0) ∈ cpList val ts := by
  have hlen : i < (cpList val ts).length := by simpa [cpList] using hi
  rw [List.getD_eq_getElem _ _ hlen]
  exact List.getElem_mem hlen

theorem smax_main (val : TrackIDE → ℚ) (ts : List TrackIDE) (r : ℚ × Int)
    (hr : r = List.foldl smaxStep (-1, -1) (cpList val ts))
    (hne : ts ≠ []) (hpos : ∀ t ∈ ts, 0 ≤ val t) :
    r.2 ∈ ts.map (·.trackID) ∧
    sumFor val ts r.2 = r.1 ∧
    (∀ k ∈ ts.map (·.trackID), sumFor val ts k ≤ r.1) ∧
    ∃ i, i < ts.length ∧ (ts.getD i default).trackID = r.2 ∧
      sumFor val (ts.take (i + 1)) r.2 = r.1 ∧
      ∀ j, j < i →
        sumFor val (ts.take (j + 1)) ((ts.getD j default).trackID) < r.1 := by
  subst hr
  have hlen : (cpList val ts).length = ts.length := by simp [cpList]
  have hposcp : ∀ c ∈ cpList val ts, 0 ≤ c.2 := by
    intro c hc
    obtain ⟨i, _, rfl⟩ := List.mem_map.mp hc
    apply sumFor_nonneg
    intro u hu
    exact hpos u (List.take_subset _ _ hu)
  have hub : ∀ k ∈ ts.map (·.trackID),
      sumFor val ts k ≤ (List.foldl smaxStep (-1, -1) (cpList val ts)).1 := by
    intro k hk
    obtain ⟨j, hj, hj1, hj2⟩ := sumFor_take_last val ts k hk
    have hmem := cpList_getD_mem val ts j hj
    have := (smax_le_res (cpList val ts) (-1, -1)).2 _ hmem
    rw [cpList_getD val ts j hj] at this
    unfold cpVal at this
    rw [hj1, hj2] at this
    exact this
  rcases smax_attain (cpList val ts) (-1, -1) with ⟨_, hle⟩ | ⟨_, i, hi, h1, h2, h3⟩
  · exfalso
    have h0 : 0 < ts.length := List.length_pos.mpr hne
    have hmem := cpList_getD_mem val ts 0 h0
    have hc1 := hle _ hmem
    have hc2 := hposcp _ hmem
    simp only at hc1
    linarith
  · rw [hlen] at hi
    rw [cpList_getD val ts i hi] at h1 h2
    simp only [cpVal] at h1 h2
    have hmemtid : (List.foldl smaxStep (-1, -1) (cpList val ts)).2 ∈
        ts.map (·.trackID) := by
      rw [← h1]
      apply List.mem_map.mpr
      refine ⟨ts.getD i default, ?_, rfl⟩
      rw [List.getD_eq_getElem _ _ hi]
      exact List.getElem_mem hi
    have heq : sumFor val ts (List.foldl smaxStep (-1, -1) (cpList val ts)).2 =
        (List.foldl smaxStep (-1, -1) (cpList val ts)).1 := by
      apply le_antisymm (hub _ hmemtid)
      calc (List.foldl smaxStep (-1, -1) (cpList val ts)).1
          = sumFor val (ts.take (i + 1)) (ts.getD i default).trackID := h2.symm
        _ ≤ sumFor val ts (ts.getD i default).trackID :=
            sumFor_take_le val ts (i + 1) _ hpos
        _ = sumFor val ts (List.foldl smaxStep (-1, -1) (cpList val ts)).2 := by
            rw [h1]
    refine ⟨hmemtid, heq, hub, i, hi, h1, by rw [← h1]; exact h2, ?_⟩
    intro j hj
    have hjlen : j < ts.length := lt_trans hj hi
    have hcp := h3 j hj
    rw [cpList_getD val ts j hjlen] at hcp
    simp only [cpVal] at hcp
    exact hcp

theorem accumHit_maxe_spec (ts : List TrackIDE) (hne : ts ≠ [])
    (hpos : ∀ t ∈ ts, 0 ≤ t.energy) :
    (accumHit ts).maxtrkid ∈ ts.map (·.trackID) ∧
    sumFor (·.energy) ts (accumHit ts).maxtrkid = (accumHit ts).maxe ∧
    (∀ k ∈ ts.map (·.trackID), sumFor (·.energy) ts k ≤ (accumHit ts).maxe) ∧
    ∃ i, i < ts.length ∧ (ts.getD i default).trackID = (accumHit ts).maxtrkid ∧
      sumFor (·.energy) (ts.take (i + 1)) (accumHit ts).maxtrkid = (accumHit ts).maxe ∧
      ∀ j, j < i → sumFor (·.energy) (ts.take (j + 1))
        ((ts.getD j default).trackID) < (accumHit ts).maxe := by
  have h := smax_main (·.energy) ts ((accumHit ts).maxe, (accumHit ts).maxtrkid)
    (accumHit_maxE ts) hne hpos
  simpa using h

theorem accumHit_maxn_spec (ts : List TrackIDE) (hne : ts ≠ [])
    (hpos : ∀ t ∈ ts, 0 ≤ t.numElectrons) :
    (accumHit ts).maxntrkid ∈ ts.map (·.trackID) ∧
    sumFor (·.numElectrons) ts (accumHit ts).maxntrkid = (accumHit ts).maxn ∧
    (∀ k ∈ ts.map (·.trackID), sumFor (·.numElectrons) ts k ≤ (accumHit ts).maxn) ∧
    ∃ i, i < ts.length ∧ (ts.getD i default).trackID = (accumHit ts).maxntrkid ∧
      sumFor (·.numElectrons) (ts.take (i + 1)) (accumHit ts).maxntrkid = (accumHit ts).maxn ∧
      ∀ j, j < i → sumFor (·.numElectrons) (ts.take (j + 1))
        ((ts.getD j default).trackID) < (accumHit ts).maxn := by
  have h := smax_main (·.numElectrons) ts ((accumHit ts).maxn, (accumHit ts).maxntrkid)
    (accumHit_maxN ts) hne hpos
  simpa using h

/-! trkid_lookup lemmas. -/

theorem trkid_lookup_nonneg_or (ps : List MCParticle) (k : Int) :
    trkid_lookup ps k = -1 ∨ 0 ≤ trkid_lookup ps k := by
  induction ps with
  | nil => exact Or.inl rfl
  | cons p rest ih =>
    by_cases h : p.TrackId = k
    · right; simp [trkid_lookup, h]
    · rcases ih with h2 | h2
      · left; simp [trkid_lookup, h, h2]
      · right
        have hne : trkid_lookup rest k ≠ -1 := by intro hc; rw [hc] at h2; norm_num at h2
        simp [trkid_lookup, h, hne]
        omega

theorem trkid_lookup_eq_neg_one_iff (ps : List MCParticle) (k : Int) :
    trkid_lookup ps k = -1 ↔ ∀ p ∈ ps, p.TrackId ≠ k := by
  induction ps with
  | nil => simp [trkid_lookup]
  | cons p rest ih =>
    by_cases h : p.TrackId = k
    · simp [trkid_lookup, h]
    · by_cases h2 : trkid_lookup rest k = -1
      · constructor
        · intro _ q hq
          rcases List.mem_cons.mp hq with rfl | hq2
          · exact h
          · exact ih.mp h2 q hq2
        · intro _
          simp [trkid_lookup, h, h2]
      · have hge : 0 ≤ trkid_lookup rest k := (trkid_lookup_nonneg_or rest k).resolve_left h2
        have : ∃ q ∈ rest, q.TrackId = k := by
          by_contra hc
          push_neg at hc
          exact h2 (ih.mpr hc)
        obtain ⟨q, hq, hqk⟩ := this
        simp [trkid_lookup, h, h2]
        constructor
        · intro hc; omega
        · intro hc; exact absurd hqk (hc q hq)

theorem trkid_lookup_first (ps : List MCParticle) :
    ∀ i k, i < ps.length → (ps.getD i default).TrackId = k →
      (∀ j, j < i → (ps.getD j default).TrackId ≠ k) →
      trkid_lookup ps k = (i : Int) := by
  induction ps with
  | nil => intro i k hi; simp at hi
  | cons p rest ih =>
    intro i k hi hk hfirst
    cases i with
    | zero =>
      simp only [List.getD_cons_zero] at hk
      simp [trkid_lookup, hk]
    | succ i2 =>
      have hp : p.TrackId ≠ k := by
        have := hfirst 0 (by omega)
        simpa using this
      have hrest : trkid_lookup rest k = (i2 : Int) := by
        apply ih i2 k (by simpa using hi) (by simpa using hk)
        intro j hj
        have := hfirst (j + 1) (by omega)
        simpa using this
      have hne : trkid_lookup rest k ≠ -1 := by rw [hrest]; omega
      simp [trkid_lookup, hp, hne, hrest]

/-! Emission lemmas. -/

theorem mem_emitHit (ps : List MCParticle) (i_h : Nat) (s : AccState)
    (e : OutputEntry) :
    e ∈ emitHit ps i_h s ↔
      ∃ kv ∈ s.coll, trkid_lookup ps kv.1 ≠ -1 ∧
        e = ⟨i_h, trkid_lookup ps kv.1, kv.1,
          ⟨kv.2.E / s.tote, decide (kv.1 = s.maxtrkid),
           kv.2.NumElectrons / s.totn, decide (kv.1 = s.maxntrkid),
           kv.2.E, kv.2.NumElectrons⟩⟩ := by
  unfold emitHit
  rw [List.mem_filterMap]
  constructor
  · rintro ⟨kv, hkv, hsome⟩
    dsimp only at hsome
    by_cases h : trkid_lookup ps kv.1 = -1
    · rw [if_pos h] at hsome
      exact absurd hsome (by simp)
    · rw [if_neg h] at hsome
      exact ⟨kv, hkv, h, (Option.some.inj hsome).symm⟩
  · rintro ⟨kv, hkv, h, rfl⟩
    refine ⟨kv, hkv, ?_⟩
    dsimp only
    rw [if_neg h]

theorem mem_emitHit_fields (ps : List MCParticle) (i_h : Nat) (s : AccState)
    (e : OutputEntry) (he : e ∈ emitHit ps i_h s) :
    e.hitIndex = i_h ∧ e.mcpartIndex = trkid_lookup ps e.trackId ∧
      trkid_lookup ps e.trackId ≠ -1 ∧
      e.bthmd.ideFraction = e.bthmd.energy / s.tote ∧
      e.bthmd.ideNFraction = e.bthmd.numElectrons / s.totn ∧
      e.bthmd.isMaxIDE = decide (e.trackId = s.maxtrkid) ∧
      e.bthmd.isMaxIDEN = decide (e.trackId = s.maxntrkid) := by
  obtain ⟨kv, _, h, rfl⟩ := (mem_emitHit ps i_h s e).mp he
  exact ⟨rfl, rfl, h, rfl, rfl, rfl, rfl⟩

theorem countP_filterMap_eq {α β : Type} (f : α → Option β) (p : β → Bool)
    (q : α → Bool) (l : List α) (h : ∀ a, ((f a).map p).getD false = q a) :
    (List.filterMap f l).countP p = l.countP q := by
  induction l with
  | nil => rfl
  | cons a l ih =>
    rw [List.filterMap_cons]
    cases hfa : f a with
    | none =>
      have hq : q a = false := by rw [← h a, hfa]; rfl
      rw [List.countP_cons, hq]
      simp [ih]
    | some b =>
      have hq : q a = p b := by rw [← h a, hfa]; rfl
      rw [List.countP_cons, List.countP_cons, hq, ih]

theorem countP_key_not_mem (m : List (Int × TrackIDEinfo)) (k : Int)
    (b : Int → Bool) (hk : k ∉ m.map Prod.fst) :
    m.countP (fun kv => b kv.1 && decide (kv.1 = k)) = 0 := by
  induction m with
  | nil => rfl
  | cons kv rest ih =>
    have h1 : kv.1 ≠ k := by
      intro hc
      exact hk (by rw [← hc]; exact List.mem_map_of_mem _ (List.mem_cons_self _ _))
    have h2 : k ∉ rest.map Prod.fst := fun hc => hk (List.mem_map.mp hc |>.elim
      (fun a ha => List.mem_map.mpr ⟨a, List.mem_cons_of_mem _ ha.1, ha.2⟩))
    rw [List.countP_cons]
    simp [h1, ih h2]

theorem countP_key_unique (m : List (Int × TrackIDEinfo)) (k : Int)
    (b : Int → Bool) (hnd : (m.map Prod.fst).Nodup) (hk : k ∈ m.map Prod.fst) :
    m.countP (fun kv => b kv.1 && decide (kv.1 = k)) = if b k then 1 else 0 := by
  induction m with
  | nil => simp at hk
  | cons kv rest ih =>
    have hnd2 : (kv.1 :: rest.map Prod.fst).Nodup := by
      rw [List.map_cons] at hnd; exact hnd
    by_cases h : kv.1 = k
    · have hrest : k ∉ rest.map Prod.fst := by
        rw [← h]; exact (List.nodup_cons.mp hnd2).1
      rw [List.countP_cons, countP_key_not_mem rest k b hrest]
      simp [h]
    · have hk2 : k ∈ rest.map Prod.fst := by
        rcases List.mem_cons.mp (by rw [List.map_cons] at hk; exact hk) with hc | hc
        · exact absurd hc.symm h
        · exact hc
      rw [List.countP_cons, ih (List.nodup_cons.mp hnd2).2 hk2]
      simp [h]

theorem filterMap_eq_map_of_some {α β : Type} (f : α → Option β) (g : α → β)
    (l : List α) (h : ∀ a ∈ l, f a = some (g a)) : List.filterMap f l = l.map g := by
  induction l with
  | nil => rfl
  | cons a l ih =>
    rw [List.filterMap_cons, h a (List.mem_cons_self _ _), List.map_cons,
      ih (fun a ha => h a (List.mem_cons_of_mem _ ha))]

theorem list_sum_div {α : Type} (l : List α) (f : α → ℚ) (c : ℚ) :
    (l.map (fun x => f x / c)).sum = (l.map f).sum / c := by
  induction l with
  | nil => simp
  | cons a l ih => simp [ih, add_div]

theorem list_sum_map_add {α : Type} (l : List α) (f g : α → ℚ) :
    (l.map (fun x => f x + g x)).sum = (l.map f).sum + (l.map g).sum := by
  induction l with
  | nil => simp
  | cons a l ih =>
    simp only [List.map_cons, List.sum_cons, ih]
    ring

theorem sum_if_single (ks : List Int) (a : Int) (c : ℚ) (hnd : ks.Nodup)
    (ha : a ∈ ks) :
    (ks.map (fun k => if a = k then c else 0)).sum = c := by
  induction ks with
  | nil => simp at ha
  | cons k ks ih =>
    by_cases h : a = k
    · subst h
      have hrest : a ∉ ks := (List.nodup_cons.mp hnd).1
      have hz : (ks.map (fun k => if a = k then c else 0)).sum = 0 := by
        apply List.sum_eq_zero
        intro x hx
        obtain ⟨k2, hk2, rfl⟩ := List.mem_map.mp hx
        rw [if_neg (by intro hc; subst hc; exact hrest hk2)]
      simp [hz]
    · have ha2 : a ∈ ks := by
        rcases List.mem_cons.mp ha with hc | hc
        · exact absurd hc h
        · exact hc
      simp [h, ih (List.nodup_cons.mp hnd).2 ha2]

theorem sum_sumFor_keys (val : TrackIDE → ℚ) (ks : List Int) (hnd : ks.Nodup) :
    ∀ ts : List TrackIDE, (∀ t ∈ ts, t.trackID ∈ ks) →
      (ks.map (fun k => sumFor val ts k)).sum = totalFor val ts := by
  intro ts
  induction ts with
  | nil =>
    intro _
    simp [sumFor, totalFor]
  | cons t ts ih =>
    intro hcov
    have hcov2 : ∀ u ∈ ts, u.trackID ∈ ks :=
      fun u hu => hcov u (List.mem_cons_of_mem _ hu)
    have ht : t.trackID ∈ ks := hcov t (List.mem_cons_self _ _)
    calc (ks.map (fun k => sumFor val (t :: ts) k)).sum
        = (ks.map (fun k => (if t.trackID = k then val t else 0) + sumFor val ts k)).sum := by
          congr 1
          apply List.map_congr_left
          intro k _
          rw [sumFor_cons]
      _ = (ks.map (fun k => if t.trackID = k then val t else 0)).sum
            + (ks.map (fun k => sumFor val ts k)).sum := list_sum_map_add ks _ _
      _ = val t + totalFor val ts := by
          rw [sum_if_single ks t.trackID (val t) hnd ht, ih hcov2]
      _ = totalFor val (t :: ts) := by simp [totalFor]

/-! Claim theorems. -/

/-- C5: if the hit input collection handle is invalid, produce aborts
immediately: it puts no output relation into the event (not even an
empty one) and returns without processing any hit. In the model the
early return of lines 129-132 is the none result. -/
theorem produce_none_of_invalid_hit_handle (evt : Event)
    (h : evt.hitListHandle = none) : produce evt = none := by
  unfold produce
  rw [h]
  cases evt.isRealData <;> simp

/-- C5 witness. -/
theorem produce_none_of_invalid_hit_handle_witness :
    (Event.mk false [⟨7⟩] none (fun _ => [])).hitListHandle = none ∧
    produce (Event.mk false [⟨7⟩] none (fun _ => [])) = none :=
  ⟨rfl, produce_none_of_invalid_hit_handle _ rfl⟩

/-- C6: for a real-world-recorded event, produce returns immediately
(line 108) and emits no output entries at all. -/
theorem produce_none_of_real_data (evt : Event) (h : evt.isRealData = true) :
    produce evt = none := by
  unfold produce
  rw [h]
  simp

/-- C6 witness. -/
theorem produce_none_of_real_data_witness :
    (Event.mk true [⟨7⟩] (some 2) (fun _ => [⟨7, 1, 1⟩])).isRealData = true ∧
    produce (Event.mk true [⟨7⟩] (some 2) (fun _ => [⟨7, 1, 1⟩])) = none :=
  ⟨rfl, produce_none_of_real_data _ rfl⟩

/-- C4: a contribution trackId carried by no particle produces no
output entry, while the fraction denominators of every emitted entry
remain the totals over all contribution records (including records of
that unresolvable trackId). -/
theorem unresolved_counted_in_denominators (ps : List MCParticle) (i_h : Nat)
    (ts : List TrackIDE) (k : Int) (hk : ∀ p ∈ ps, p.TrackId ≠ k) :
    (∀ e ∈ emitHit ps i_h (accumHit ts), e.trackId ≠ k) ∧
    (accumHit ts).tote = totalFor (·.energy) ts ∧
    (accumHit ts).totn = totalFor (·.numElectrons) ts ∧
    (∀ e ∈ emitHit ps i_h (accumHit ts),
      e.bthmd.ideFraction = e.bthmd.energy / totalFor (·.energy) ts ∧
      e.bthmd.ideNFraction = e.bthmd.numElectrons / totalFor (·.numElectrons) ts) := by
  have hlk : trkid_lookup ps k = -1 := (trkid_lookup_eq_neg_one_iff ps k).mpr hk
  refine ⟨?_, accumHit_tote ts, accumHit_totn ts, ?_⟩
  · intro e he hek
    have hf := (mem_emitHit_fields ps i_h _ e he).2.2.1
    rw [hek] at hf
    exact hf hlk
  · intro e he
    obtain ⟨_, _, _, hfr, hfrN, _, _⟩ := mem_emitHit_fields ps i_h _ e he
    rw [hfr, hfrN, accumHit_tote, accumHit_totn]
    exact ⟨rfl, rfl⟩

/-- C4 witness: trackId 9 is carried by no particle; the single record
of trackId 9 still enters both denominators. -/
theorem unresolved_counted_in_denominators_witness :
    (∀ p ∈ ([⟨1⟩] : List MCParticle), p.TrackId ≠ 9) ∧
    ((∀ e ∈ emitHit [⟨1⟩] 0 (accumHit [⟨1, 1, 1⟩, ⟨9, 3, 3⟩]), e.trackId ≠ 9) ∧
     (accumHit [⟨1, 1, 1⟩, ⟨9, 3, 3⟩]).tote =
       totalFor (·.energy) [⟨1, 1, 1⟩, ⟨9, 3, 3⟩] ∧
     (accumHit [⟨1, 1, 1⟩, ⟨9, 3, 3⟩]).totn =
       totalFor (·.numElectrons) [⟨1, 1, 1⟩, ⟨9, 3, 3⟩] ∧
     (∀ e ∈ emitHit [⟨1⟩] 0 (accumHit [⟨1, 1, 1⟩, ⟨9, 3, 3⟩]),
       e.bthmd.ideFraction =
         e.bthmd.energy / totalFor (·.energy) [⟨1, 1, 1⟩, ⟨9, 3, 3⟩] ∧
       e.bthmd.ideNFraction =
         e.bthmd.numElectrons / totalFor (·.numElectrons) [⟨1, 1, 1⟩, ⟨9, 3, 3⟩])) :=
  ⟨by intro p hp; simp at hp; subst hp; decide,
   unresolved_counted_in_denominators [⟨1⟩] 0 [⟨1, 1, 1⟩, ⟨9, 3, 3⟩] 9
     (by intro p hp; simp at hp; subst hp; decide)⟩

/-- C8: a hit with an empty contribution-record list emits nothing,
and processing continues with the remaining hits: produce still puts
the concatenation over all hit positions, from which hit i contributes
no entry. -/
theorem empty_records_emit_nothing (evt : Event) (n i : Nat)
    (hreal : evt.isRealData = false) (hh : evt.hitListHandle = some n)
    (hi : evt.hitToTrackID i = []) :
    produce evt =
      some ((List.range n).flatMap (processHit evt.mcpartList evt.hitToTrackID)) ∧
    processHit evt.mcpartList evt.hitToTrackID i = [] ∧
    ∀ e ∈ (List.range n).flatMap (processHit evt.mcpartList evt.hitToTrackID),
      e.hitIndex ≠ i := by
  have hempty : processHit evt.mcpartList evt.hitToTrackID i = [] := by
    unfold processHit
    rw [hi]
    rfl
  refine ⟨by simp [produce, hreal, hh], hempty, ?_⟩
  intro e he hc
  obtain ⟨j, hj, hej⟩ := List.mem_flatMap.mp he
  have hidx : e.hitIndex = j := (mem_emitHit_fields _ _ _ e hej).1
  rw [hc] at hidx
  rw [← hidx] at hej
  rw [hempty] at hej
  cases hej

/-- C8 witness: two hits, the first with no records. -/
theorem empty_records_emit_nothing_witness :
    ((Event.mk false [⟨1⟩] (some 2)
        (fun j => if j = 0 then [] else [⟨1, 1, 1⟩])).isRealData = false ∧
     (Event.mk false [⟨1⟩] (some 2)
        (fun j => if j = 0 then [] else [⟨1, 1, 1⟩])).hitListHandle = some 2 ∧
     (Event.mk false [⟨1⟩] (some 2)
        (fun j => if j = 0 then [] else [⟨1, 1, 1⟩])).hitToTrackID 0 = []) ∧
    (produce (Event.mk false [⟨1⟩] (some 2)
        (fun j => if j = 0 then [] else [⟨1, 1, 1⟩])) =
      some ((List.range 2).flatMap
        (processHit [⟨1⟩] (fun j => if j = 0 then [] else [⟨1, 1, 1⟩]))) ∧
     processHit [⟨1⟩] (fun j => if j = 0 then [] else [⟨1, 1, 1⟩]) 0 = [] ∧
     ∀ e ∈ (List.range 2).flatMap
        (processHit [⟨1⟩] (fun j => if j = 0 then [] else [⟨1, 1, 1⟩])),
       e.hitIndex ≠ 0) :=
  ⟨⟨rfl, rfl, rfl⟩,
   empty_records_emit_nothing _ 2 0 rfl rfl rfl⟩

/-- C10: when the particle at position i carries trackId k and no
earlier position does, resolution binds k to position i (the first
match of the linear scan at lines 159-166), and every output entry
for k in the event references that same particle position. -/
theorem lookup_binds_first_position (evt : Event) (out : List OutputEntry)
    (k : Int) (i : Nat) (hout : produce evt = some out)
    (hi : i < evt.mcpartList.length)
    (hk : (evt.mcpartList.getD i default).TrackId = k)
    (hfirst : ∀ j, j < i → (evt.mcpartList.getD j default).TrackId ≠ k) :
    trkid_lookup evt.mcpartList k = (i : Int) ∧
    ∀ e ∈ out, e.trackId = k → e.mcpartIndex = (i : Int) := by
  have hlk := trkid_lookup_first evt.mcpartList i k hi hk hfirst
  refine ⟨hlk, ?_⟩
  intro e he hek
  unfold produce at hout
  by_cases hreal : evt.isRealData
  · rw [if_pos hreal] at hout
    exact absurd hout (by simp)
  · rw [if_neg hreal] at hout
    cases hh : evt.hitListHandle with
    | none =>
      rw [hh] at hout
      exact absurd hout (by simp)
    | some n =>
      rw [hh] at hout
      have hout2 : (List.range n).flatMap
          (processHit evt.mcpartList evt.hitToTrackID) = out :=
        Option.some.inj hout
      rw [← hout2] at he
      obtain ⟨j, _, hej⟩ := List.mem_flatMap.mp he
      have hmc := (mem_emitHit_fields evt.mcpartList j _ e hej).2.1
      rw [hmc, hek, hlk]

/-- C10 witness: trackId 5 appears at particle positions 1 and 2; the
entry for trackId 5 references position 1. -/
theorem lookup_binds_first_position_witness :
    (produce (Event.mk false [⟨7⟩, ⟨5⟩, ⟨5⟩] (some 1) (fun _ => [⟨5, 4, 4⟩])) =
      some ((List.range 1).flatMap
        (processHit [⟨7⟩, ⟨5⟩, ⟨5⟩] (fun _ => [⟨5, 4, 4⟩]))) ∧
     1 < ([⟨7⟩, ⟨5⟩, ⟨5⟩] : List MCParticle).length ∧
     (([⟨7⟩, ⟨5⟩, ⟨5⟩] : List MCParticle).getD 1 default).TrackId = 5 ∧
     (∀ j, j < 1 → (([⟨7⟩, ⟨5⟩, ⟨5⟩] : List MCParticle).getD j default).TrackId ≠ 5)) ∧
    (trkid_lookup [⟨7⟩, ⟨5⟩, ⟨5⟩] 5 = (1 : Int) ∧
     ∀ e ∈ (List.range 1).flatMap
        (processHit [⟨7⟩, ⟨5⟩, ⟨5⟩] (fun _ => [⟨5, 4, 4⟩])),
       e.trackId = 5 → e.mcpartIndex = (1 : Int)) :=
  ⟨⟨rfl, by simp, by decide, by intro j hj; interval_cases j; decide⟩,
   lookup_binds_first_position
     (Event.mk false [⟨7⟩, ⟨5⟩, ⟨5⟩] (some 1) (fun _ => [⟨5, 4, 4⟩]))
     ((List.range 1).flatMap (processHit [⟨7⟩, ⟨5⟩, ⟨5⟩] (fun _ => [⟨5, 4, 4⟩])))
     5 1 rfl (by simp) (by decide)
     (by intro j hj; interval_cases j; decide)⟩

/-- C7: when every contribution record of a hit resolves to some
particle, the number of emitted entries equals the number of distinct
trackIds among the hit's records. -/
theorem entry_count_eq_distinct_trackids (ps : List MCParticle) (i_h : Nat)
    (ts : List TrackIDE) (hlen : 0 < ts.length)
    (hres : ∀ t ∈ ts, ∃ p ∈ ps, p.TrackId = t.trackID) :
    (emitHit ps i_h (accumHit ts)).length = (ts.map (·.trackID)).dedup.length := by
  have hres2 : ∀ kv ∈ (accumHit ts).coll, trkid_lookup ps kv.1 ≠ -1 := by
    intro kv hkv hc
    have hmem : kv.1 ∈ ts.map (·.trackID) :=
      (mem_map_fst_accumHit ts kv.1).mp (List.mem_map_of_mem _ hkv)
    obtain ⟨t, ht, htid⟩ := List.mem_map.mp hmem
    obtain ⟨p, hp, hpk⟩ := hres t ht
    exact (trkid_lookup_eq_neg_one_iff ps kv.1).mp hc p hp (by rw [hpk, htid])
  rw [emitHit, filterMap_eq_map_of_some _
    (fun kv => OutputEntry.mk i_h (trkid_lookup ps kv.1) kv.1
      (BackTrackerHitMatchingData.mk (kv.2.E / (accumHit ts).tote)
        (decide (kv.1 = (accumHit ts).maxtrkid))
        (kv.2.NumElectrons / (accumHit ts).totn)
        (decide (kv.1 = (accumHit ts).maxntrkid)) kv.2.E kv.2.NumElectrons)) _
    (by intro kv hkv; dsimp only; rw [if_neg (hres2 kv hkv)])]
  rw [List.length_map]
  have h1 : (accumHit ts).coll.length = ((accumHit ts).coll.map Prod.fst).length :=
    (List.length_map _ _).symm
  have h2 : ((accumHit ts).coll.map Prod.fst).toFinset =
      (ts.map (·.trackID)).toFinset := by
    ext a
    simp only [List.mem_toFinset]
    exact mem_map_fst_accumHit ts a
  rw [h1, ← List.toFinset_card_of_nodup (nodup_map_fst_accumHit ts), h2]
  rfl

/-- C7 witness: records with trackIds 4, 4, 6 give two entries. -/
theorem entry_count_eq_distinct_trackids_witness :
    (0 < ([⟨4, 1, 1⟩, ⟨4, 2, 2⟩, ⟨6, 1, 1⟩] : List TrackIDE).length ∧
     (∀ t ∈ ([⟨4, 1, 1⟩, ⟨4, 2, 2⟩, ⟨6, 1, 1⟩] : List TrackIDE),
       ∃ p ∈ ([⟨4⟩, ⟨6⟩] : List MCParticle), p.TrackId = t.trackID)) ∧
    (emitHit [⟨4⟩, ⟨6⟩] 0 (accumHit [⟨4, 1, 1⟩, ⟨4, 2, 2⟩, ⟨6, 1, 1⟩])).length =
      (([⟨4, 1, 1⟩, ⟨4, 2, 2⟩, ⟨6, 1, 1⟩] : List TrackIDE).map (·.trackID)).dedup.length :=
  ⟨⟨by simp, by
      intro t ht
      simp only [List.mem_cons, List.not_mem_nil, or_false] at ht
      rcases ht with rfl | rfl | rfl
      · exact ⟨⟨4⟩, by simp, rfl⟩
      · exact ⟨⟨4⟩, by simp, rfl⟩
      · exact ⟨⟨6⟩, by simp, rfl⟩⟩,
   entry_count_eq_distinct_trackids [⟨4⟩, ⟨6⟩] 0 [⟨4, 1, 1⟩, ⟨4, 2, 2⟩, ⟨6, 1, 1⟩]
     (by simp)
     (by
      intro t ht
      simp only [List.mem_cons, List.not_mem_nil, or_false] at ht
      rcases ht with rfl | rfl | rfl
      · exact ⟨⟨4⟩, by simp, rfl⟩
      · exact ⟨⟨4⟩, by simp, rfl⟩
      · exact ⟨⟨6⟩, by simp, rfl⟩)⟩

theorem countP_emit_flagE (ps : List MCParticle) (i_h : Nat) (s : AccState) :
    (emitHit ps i_h s).countP (fun e => e.bthmd.isMaxIDE) =
      s.coll.countP
        (fun kv => decide (trkid_lookup ps kv.1 ≠ -1) && decide (kv.1 = s.maxtrkid)) := by
  apply countP_filterMap_eq
  intro kv
  dsimp only
  by_cases h : trkid_lookup ps kv.1 = -1
  · rw [if_pos h]
    simp [h]
  · rw [if_neg h]
    simp [h]

theorem countP_emit_flagN (ps : List MCParticle) (i_h : Nat) (s : AccState) :
    (emitHit ps i_h s).countP (fun e => e.bthmd.isMaxIDEN) =
      s.coll.countP
        (fun kv => decide (trkid_lookup ps kv.1 ≠ -1) && decide (kv.1 = s.maxntrkid)) := by
  apply countP_filterMap_eq
  intro kv
  dsimp only
  by_cases h : trkid_lookup ps kv.1 = -1
  · rw [if_pos h]
    simp [h]
  · rw [if_neg h]
    simp [h]

/-- C2 (amended): among the entries emitted for a hit with at least one
contribution record, the number flagged dominant-by-energy is one when
the dominant trackId resolves to a particle and zero when it does not —
even though other entries may well be emitted; independently for the
dominant-by-charge flag. -/
theorem unique_dominant_flag_amended (ps : List MCParticle) (i_h : Nat)
    (ts : List TrackIDE) (hne : ts ≠ []) (hE : ∀ t ∈ ts, 0 ≤ t.energy)
    (hN : ∀ t ∈ ts, 0 ≤ t.numElectrons) :
    (emitHit ps i_h (accumHit ts)).countP (fun e => e.bthmd.isMaxIDE) =
      (if trkid_lookup ps (accumHit ts).maxtrkid = -1 then 0 else 1) ∧
    (emitHit ps i_h (accumHit ts)).countP (fun e => e.bthmd.isMaxIDEN) =
      (if trkid_lookup ps (accumHit ts).maxntrkid = -1 then 0 else 1) := by
  constructor
  · rw [countP_emit_flagE]
    have hmem : (accumHit ts).maxtrkid ∈ (accumHit ts).coll.map Prod.fst := by
      rw [mem_map_fst_accumHit]
      exact (accumHit_maxe_spec ts hne hE).1
    rw [countP_key_unique _ _ (fun x => decide (trkid_lookup ps x ≠ -1))
      (nodup_map_fst_accumHit ts) hmem]
    by_cases h : trkid_lookup ps (accumHit ts).maxtrkid = -1 <;> simp [h]
  · rw [countP_emit_flagN]
    have hmem : (accumHit ts).maxntrkid ∈ (accumHit ts).coll.map Prod.fst := by
      rw [mem_map_fst_accumHit]
      exact (accumHit_maxn_spec ts hne hN).1
    rw [countP_key_unique _ _ (fun x => decide (trkid_lookup ps x ≠ -1))
      (nodup_map_fst_accumHit ts) hmem]
    by_cases h : trkid_lookup ps (accumHit ts).maxntrkid = -1 <;> simp [h]

/-- C2 counterexample: the hit has records for trackIds 1 (dominant by
both energy and charge) and 2, but only trackId 2 resolves to a
particle. One entry is emitted, yet no emitted entry carries either
dominance flag — refuting that exactly one emitted entry is flagged
whenever at least one entry is emitted. -/
theorem dominant_flag_missing_when_unresolvable :
    (emitHit [⟨2⟩] 0 (accumHit [⟨1, 5, 5⟩, ⟨2, 1, 1⟩])).length = 1 ∧
    (emitHit [⟨2⟩] 0 (accumHit [⟨1, 5, 5⟩, ⟨2, 1, 1⟩])).countP
      (fun e => e.bthmd.isMaxIDE) = 0 ∧
    (emitHit [⟨2⟩] 0 (accumHit [⟨1, 5, 5⟩, ⟨2, 1, 1⟩])).countP
      (fun e => e.bthmd.isMaxIDEN) = 0 := by
  refine ⟨?_, ?_, ?_⟩ <;>
    (norm_num [emitHit, accumHit, accumStep, initAcc, updateColl, lookupColl,
       trkid_lookup] <;>
     simp only [List.filterMap_cons] <;>
     norm_num [List.countP_cons])

/-- C2 witness: both trackIds resolve, so exactly one entry carries
each flag. -/
theorem unique_dominant_flag_amended_witness :
    (([⟨1, 5, 5⟩, ⟨2, 1, 1⟩] : List TrackIDE) ≠ [] ∧
     (∀ t ∈ ([⟨1, 5, 5⟩, ⟨2, 1, 1⟩] : List TrackIDE), 0 ≤ t.energy) ∧
     (∀ t ∈ ([⟨1, 5, 5⟩, ⟨2, 1, 1⟩] : List TrackIDE), 0 ≤ t.numElectrons)) ∧
    ((emitHit [⟨1⟩, ⟨2⟩] 0 (accumHit [⟨1, 5, 5⟩, ⟨2, 1, 1⟩])).countP
        (fun e => e.bthmd.isMaxIDE) =
      (if trkid_lookup [⟨1⟩, ⟨2⟩] (accumHit [⟨1, 5, 5⟩, ⟨2, 1, 1⟩]).maxtrkid = -1
        then 0 else 1) ∧
     (emitHit [⟨1⟩, ⟨2⟩] 0 (accumHit [⟨1, 5, 5⟩, ⟨2, 1, 1⟩])).countP
        (fun e => e.bthmd.isMaxIDEN) =
      (if trkid_lookup [⟨1⟩, ⟨2⟩] (accumHit [⟨1, 5, 5⟩, ⟨2, 1, 1⟩]).maxntrkid = -1
        then 0 else 1)) :=
  ⟨⟨by simp, by intro t ht; fin_cases ht <;> norm_num,
    by intro t ht; fin_cases ht <;> norm_num⟩,
   unique_dominant_flag_amended [⟨1⟩, ⟨2⟩] 0 [⟨1, 5, 5⟩, ⟨2, 1, 1⟩] (by simp)
     (by intro t ht; fin_cases ht <;> norm_num)
     (by intro t ht; fin_cases ht <;> norm_num)⟩

/-- C3 (amended): when the total energy of a hit is strictly positive
and every contribution record's trackId resolves to a particle, the
emitted energy fractions sum to exactly 1; likewise for charge when
the total charge is strictly positive. (In the code the fractions are
floating point; here they are exact rationals, so the sum is exact.) -/
theorem fractions_sum_one_amended (ps : List MCParticle) (i_h : Nat)
    (ts : List TrackIDE) (hres : ∀ t ∈ ts, trkid_lookup ps t.trackID ≠ -1) :
    (0 < totalFor (·.energy) ts →
      ((emitHit ps i_h (accumHit ts)).map (fun e => e.bthmd.ideFraction)).sum = 1) ∧
    (0 < totalFor (·.numElectrons) ts →
      ((emitHit ps i_h (accumHit ts)).map (fun e => e.bthmd.ideNFraction)).sum = 1) := by
  have hres2 : ∀ kv ∈ (accumHit ts).coll, trkid_lookup ps kv.1 ≠ -1 := by
    intro kv hkv
    have hmem : kv.1 ∈ ts.map (·.trackID) :=
      (mem_map_fst_accumHit ts kv.1).mp (List.mem_map_of_mem _ hkv)
    obtain ⟨t, ht, htid⟩ := List.mem_map.mp hmem
    rw [← htid]
    exact hres t ht
  have hmap : emitHit ps i_h (accumHit ts) = (accumHit ts).coll.map
      (fun kv => OutputEntry.mk i_h (trkid_lookup ps kv.1) kv.1
        (BackTrackerHitMatchingData.mk (kv.2.E / (accumHit ts).tote)
          (decide (kv.1 = (accumHit ts).maxtrkid))
          (kv.2.NumElectrons / (accumHit ts).totn)
          (decide (kv.1 = (accumHit ts).maxntrkid)) kv.2.E kv.2.NumElectrons)) := by
    unfold emitHit
    apply filterMap_eq_map_of_some
    intro kv hkv
    dsimp only
    rw [if_neg (hres2 kv hkv)]
  have hvals : ∀ kv ∈ (accumHit ts).coll,
      kv.2 = TrackIDEinfo.mk (sumFor (·.energy) ts kv.1)
        (sumFor (·.numElectrons) ts kv.1) := by
    intro kv hkv
    rw [← lookupColl_eq_of_mem _ (nodup_map_fst_accumHit ts) kv hkv, accumHit_lookup]
  have hcov : ∀ t ∈ ts, t.trackID ∈ (accumHit ts).coll.map Prod.fst := by
    intro t ht
    rw [mem_map_fst_accumHit]
    exact List.mem_map_of_mem _ ht
  constructor
  · intro htote
    rw [hmap, List.map_map]
    show ((accumHit ts).coll.map fun kv => kv.2.E / (accumHit ts).tote).sum = 1
    rw [list_sum_div]
    have hE : ((accumHit ts).coll.map fun kv => kv.2.E).sum = totalFor (·.energy) ts := by
      have hmm : ((accumHit ts).coll.map fun kv => kv.2.E) =
          ((accumHit ts).coll.map Prod.fst).map (fun k => sumFor (·.energy) ts k) := by
        rw [List.map_map]
        apply List.map_congr_left
        intro kv hkv
        show kv.2.E = sumFor (·.energy) ts kv.1
        rw [hvals kv hkv]
      rw [hmm, sum_sumFor_keys (·.energy) _ (nodup_map_fst_accumHit ts) ts hcov]
    rw [hE, accumHit_tote, div_self (ne_of_gt htote)]
  · intro htotn
    rw [hmap, List.map_map]
    show ((accumHit ts).coll.map fun kv => kv.2.NumElectrons / (accumHit ts).totn).sum = 1
    rw [list_sum_div]
    have hN : ((accumHit ts).coll.map fun kv => kv.2.NumElectrons).sum =
        totalFor (·.numElectrons) ts := by
      have hmm : ((accumHit ts).coll.map fun kv => kv.2.NumElectrons) =
          ((accumHit ts).coll.map Prod.fst).map (fun k => sumFor (·.numElectrons) ts k) := by
        rw [List.map_map]
        apply List.map_congr_left
        intro kv hkv
        show kv.2.NumElectrons = sumFor (·.numElectrons) ts kv.1
        rw [hvals kv hkv]
      rw [hmm, sum_sumFor_keys (·.numElectrons) _ (nodup_map_fst_accumHit ts) ts hcov]
    rw [hN, accumHit_totn, div_self (ne_of_gt htotn)]

/-- C3 counterexample: total energy is 2 > 0, but the record of
trackId 2 resolves to no particle, so the only emitted entry carries
fraction 1/2 and the emitted fractions sum to 1/2, not 1; likewise for
charge. -/
theorem fractions_not_sum_one_with_unresolved :
    0 < totalFor (·.energy) [⟨1, 1, 1⟩, ⟨2, 1, 1⟩] ∧
    0 < totalFor (·.numElectrons) [⟨1, 1, 1⟩, ⟨2, 1, 1⟩] ∧
    ((emitHit [⟨1⟩] 0 (accumHit [⟨1, 1, 1⟩, ⟨2, 1, 1⟩])).map
      (fun e => e.bthmd.ideFraction)).sum ≠ 1 ∧
    ((emitHit [⟨1⟩] 0 (accumHit [⟨1, 1, 1⟩, ⟨2, 1, 1⟩])).map
      (fun e => e.bthmd.ideNFraction)).sum ≠ 1 := by
  refine ⟨by norm_num [totalFor], by norm_num [totalFor], ?_, ?_⟩ <;>
    (norm_num [emitHit, accumHit, accumStep, initAcc, updateColl, lookupColl,
       trkid_lookup] <;>
     simp only [List.filterMap_cons] <;> norm_num)

/-- C3 witness: both trackIds resolve and both totals are positive, so
both fraction sums are 1. -/
theorem fractions_sum_one_amended_witness :
    (∀ t ∈ ([⟨1, 1, 1⟩, ⟨2, 1, 1⟩] : List TrackIDE),
      trkid_lookup [⟨1⟩, ⟨2⟩] t.trackID ≠ -1) ∧
    ((0 < totalFor (·.energy) [⟨1, 1, 1⟩, ⟨2, 1, 1⟩] →
      ((emitHit [⟨1⟩, ⟨2⟩] 0 (accumHit [⟨1, 1, 1⟩, ⟨2, 1, 1⟩])).map
        (fun e => e.bthmd.ideFraction)).sum = 1) ∧
     (0 < totalFor (·.numElectrons) [⟨1, 1, 1⟩, ⟨2, 1, 1⟩] →
      ((emitHit [⟨1⟩, ⟨2⟩] 0 (accumHit [⟨1, 1, 1⟩, ⟨2, 1, 1⟩])).map
        (fun e => e.bthmd.ideNFraction)).sum = 1)) :=
  ⟨by intro t ht; fin_cases ht <;> decide,
   fractions_sum_one_amended [⟨1⟩, ⟨2⟩] 0 [⟨1, 1, 1⟩, ⟨2, 1, 1⟩]
     (by intro t ht; fin_cases ht <;> decide)⟩

/-- C1 (amended): for a hit with at least one record and nonnegative
energies and charges, the trackId flagged dominant-by-energy carries a
maximal final summed energy; when several trackIds end tied at that
maximum, the flag belongs to the trackId whose accumulated sum first
attained the maximum during the record scan (the running maximum is
updated only on a strictly-greater comparison) — not necessarily to
the trackId first encountered in record order. The same holds
independently for charge. -/
theorem dominant_selection_amended (ts : List TrackIDE) (hne : ts ≠ [])
    (hE : ∀ t ∈ ts, 0 ≤ t.energy) (hN : ∀ t ∈ ts, 0 ≤ t.numElectrons) :
    ((accumHit ts).maxtrkid ∈ ts.map (·.trackID) ∧
     (∀ k ∈ ts.map (·.trackID),
       sumFor (·.energy) ts k ≤ sumFor (·.energy) ts (accumHit ts).maxtrkid) ∧
     (∃ i, i < ts.length ∧ (ts.getD i default).trackID = (accumHit ts).maxtrkid ∧
       sumFor (·.energy) (ts.take (i + 1)) (accumHit ts).maxtrkid =
         sumFor (·.energy) ts (accumHit ts).maxtrkid ∧
       ∀ j, j < i → sumFor (·.energy) (ts.take (j + 1)) ((ts.getD j default).trackID) <
         sumFor (·.energy) ts (accumHit ts).maxtrkid)) ∧
    ((accumHit ts).maxntrkid ∈ ts.map (·.trackID) ∧
     (∀ k ∈ ts.map (·.trackID),
       sumFor (·.numElectrons) ts k ≤
         sumFor (·.numElectrons) ts (accumHit ts).maxntrkid) ∧
     (∃ i, i < ts.length ∧ (ts.getD i default).trackID = (accumHit ts).maxntrkid ∧
       sumFor (·.numElectrons) (ts.take (i + 1)) (accumHit ts).maxntrkid =
         sumFor (·.numElectrons) ts (accumHit ts).maxntrkid ∧
       ∀ j, j < i →
         sumFor (·.numElectrons) (ts.take (j + 1)) ((ts.getD j default).trackID) <
           sumFor (·.numElectrons) ts (accumHit ts).maxntrkid)) := by
  obtain ⟨h1, h2, h3, i, hi, hia, hib, hic⟩ := accumHit_maxe_spec ts hne hE
  obtain ⟨g1, g2, g3, j, hj, hja, hjb, hjc⟩ := accumHit_maxn_spec ts hne hN
  refine ⟨⟨h1, ?_, i, hi, hia, ?_, ?_⟩, ⟨g1, ?_, j, hj, hja, ?_, ?_⟩⟩
  · intro k hk
    rw [h2]
    exact h3 k hk
  · rw [h2]
    exact hib
  · intro j2 hj2
    rw [h2]
    exact hic j2 hj2
  · intro k hk
    rw [g2]
    exact g3 k hk
  · rw [g2]
    exact hjb
  · intro j2 hj2
    rw [g2]
    exact hjc j2 hj2

/-- C1 counterexample: records in order (trackId 2, E 2), (trackId 1,
E 3), (trackId 2, E 1). Both trackIds end with summed energy 3 (a tie)
and the trackId first encountered in record order is 2, yet the code
flags trackId 1 dominant, because trackId 1's running sum reached 3
first; same numbers for charge. -/
theorem dominant_tie_not_first_encountered :
    ([⟨2, 2, 2⟩, ⟨1, 3, 3⟩, ⟨2, 1, 1⟩] : List TrackIDE).map (·.trackID) = [2, 1, 2] ∧
    sumFor (·.energy) [⟨2, 2, 2⟩, ⟨1, 3, 3⟩, ⟨2, 1, 1⟩] 1 =
      sumFor (·.energy) [⟨2, 2, 2⟩, ⟨1, 3, 3⟩, ⟨2, 1, 1⟩] 2 ∧
    sumFor (·.numElectrons) [⟨2, 2, 2⟩, ⟨1, 3, 3⟩, ⟨2, 1, 1⟩] 1 =
      sumFor (·.numElectrons) [⟨2, 2, 2⟩, ⟨1, 3, 3⟩, ⟨2, 1, 1⟩] 2 ∧
    (accumHit [⟨2, 2, 2⟩, ⟨1, 3, 3⟩, ⟨2, 1, 1⟩]).maxtrkid = 1 ∧
    (accumHit [⟨2, 2, 2⟩, ⟨1, 3, 3⟩, ⟨2, 1, 1⟩]).maxntrkid = 1 := by
  refine ⟨rfl, ?_, ?_, ?_, ?_⟩ <;>
    norm_num [sumFor, accumHit, accumStep, initAcc, updateColl, lookupColl]

/-- C1 witness. -/
theorem dominant_selection_amended_witness :
    (([⟨1, 2, 1⟩, ⟨2, 3, 5⟩] : List TrackIDE) ≠ [] ∧
     (∀ t ∈ ([⟨1, 2, 1⟩, ⟨2, 3, 5⟩] : List TrackIDE), 0 ≤ t.energy) ∧
     (∀ t ∈ ([⟨1, 2, 1⟩, ⟨2, 3, 5⟩] : List TrackIDE), 0 ≤ t.numElectrons)) ∧
    (((accumHit [⟨1, 2, 1⟩, ⟨2, 3, 5⟩]).maxtrkid ∈
        ([⟨1, 2, 1⟩, ⟨2, 3, 5⟩] : List TrackIDE).map (·.trackID) ∧
      (∀ k ∈ ([⟨1, 2, 1⟩, ⟨2, 3, 5⟩] : List TrackIDE).map (·.trackID),
        sumFor (·.energy) [⟨1, 2, 1⟩, ⟨2, 3, 5⟩] k ≤
          sumFor (·.energy) [⟨1, 2, 1⟩, ⟨2, 3, 5⟩]
            (accumHit [⟨1, 2, 1⟩, ⟨2, 3, 5⟩]).maxtrkid) ∧
      (∃ i, i < ([⟨1, 2, 1⟩, ⟨2, 3, 5⟩] : List TrackIDE).length ∧
        (([⟨1, 2, 1⟩, ⟨2, 3, 5⟩] : List TrackIDE).getD i default).trackID =
          (accumHit [⟨1, 2, 1⟩, ⟨2, 3, 5⟩]).maxtrkid ∧
        sumFor (·.energy) (([⟨1, 2, 1⟩, ⟨2, 3, 5⟩] : List TrackIDE).take (i + 1))
            (accumHit [⟨1, 2, 1⟩, ⟨2, 3, 5⟩]).maxtrkid =
          sumFor (·.energy) [⟨1, 2, 1⟩, ⟨2, 3, 5⟩]
            (accumHit [⟨1, 2, 1⟩, ⟨2, 3, 5⟩]).maxtrkid ∧
        ∀ j, j < i →
          sumFor (·.energy) (([⟨1, 2, 1⟩, ⟨2, 3, 5⟩] : List TrackIDE).take (j + 1))
              ((([⟨1, 2, 1⟩, ⟨2, 3, 5⟩] : List TrackIDE).getD j default).trackID) <
            sumFor (·.energy) [⟨1, 2, 1⟩, ⟨2, 3, 5⟩]
              (accumHit [⟨1, 2, 1⟩, ⟨2, 3, 5⟩]).maxtrkid)) ∧
     ((accumHit [⟨1, 2, 1⟩, ⟨2, 3, 5⟩]).maxntrkid ∈
        ([⟨1, 2, 1⟩, ⟨2, 3, 5⟩] : List TrackIDE).map (·.trackID) ∧
      (∀ k ∈ ([⟨1, 2, 1⟩, ⟨2, 3, 5⟩] : List TrackIDE).map (·.trackID),
        sumFor (·.numElectrons) [⟨1, 2, 1⟩, ⟨2, 3, 5⟩] k ≤
          sumFor (·.numElectrons) [⟨1, 2, 1⟩, ⟨2, 3, 5⟩]
            (accumHit [⟨1, 2, 1⟩, ⟨2, 3, 5⟩]).maxntrkid) ∧
      (∃ i, i < ([⟨1, 2, 1⟩, ⟨2, 3, 5⟩] : List TrackIDE).length ∧
        (([⟨1, 2, 1⟩, ⟨2, 3, 5⟩] : List TrackIDE).getD i default).trackID =
          (accumHit [⟨1, 2, 1⟩, ⟨2, 3, 5⟩]).maxntrkid ∧
        sumFor (·.numElectrons)
            (([⟨1, 2, 1⟩, ⟨2, 3, 5⟩] : List TrackIDE).take (i + 1))
            (accumHit [⟨1, 2, 1⟩, ⟨2, 3, 5⟩]).maxntrkid =
          sumFor (·.numElectrons) [⟨1, 2, 1⟩, ⟨2, 3, 5⟩]
            (accumHit [⟨1, 2, 1⟩, ⟨2, 3, 5⟩]).maxntrkid ∧
        ∀ j, j < i →
          sumFor (·.numElectrons)
              (([⟨1, 2, 1⟩, ⟨2, 3, 5⟩] : List TrackIDE).take (j + 1))
              ((([⟨1, 2, 1⟩, ⟨2, 3, 5⟩] : List TrackIDE).getD j default).trackID) <
            sumFor (·.numElectrons) [⟨1, 2, 1⟩, ⟨2, 3, 5⟩]
              (accumHit [⟨1, 2, 1⟩, ⟨2, 3, 5⟩]).maxntrkid))) :=
  ⟨⟨by simp, by intro t ht; fin_cases ht <;> norm_num,
    by intro t ht; fin_cases ht <;> norm_num⟩,
   dominant_selection_amended [⟨1, 2, 1⟩, ⟨2, 3, 5⟩] (by simp)
     (by intro t ht; fin_cases ht <;> norm_num)
     (by intro t ht; fin_cases ht <;> norm_num)⟩

theorem smax_const_of_le (cs : List (Int × ℚ)) : ∀ p : ℚ × Int,
    (∀ c ∈ cs, c.2 ≤ p.1) → List.foldl smaxStep p cs = p := by
  induction cs with
  | nil => intro p _; rfl
  | cons c cs ih =>
    intro p h
    rw [List.foldl_cons]
    have hstep : smaxStep p c = p := by
      unfold smaxStep
      rw [if_neg (not_lt.mpr (h c (List.mem_cons_self _ _)))]
    rw [hstep]
    exact ih p (fun d hd => h d (List.mem_cons_of_mem _ hd))

theorem sumFor_zero_val (val : TrackIDE → ℚ) (ts : List TrackIDE) (k : Int)
    (h : ∀ t ∈ ts, val t = 0) : sumFor val ts k = 0 := by
  apply List.sum_eq_zero
  intro x hx
  obtain ⟨t, ht, rfl⟩ := List.mem_map.mp hx
  exact h t (List.mem_of_mem_filter ht)

theorem smax_all_zero (val : TrackIDE → ℚ) (t0 : TrackIDE) (ts2 : List TrackIDE)
    (hzero : ∀ t ∈ t0 :: ts2, val t = 0) :
    List.foldl smaxStep (-1, -1) (cpList val (t0 :: ts2)) = (0, t0.trackID) := by
  have hcpz : ∀ i, (cpVal val (t0 :: ts2) i).2 = 0 := by
    intro i
    unfold cpVal
    apply sumFor_zero_val
    intro t ht
    exact hzero t (List.take_subset _ _ ht)
  rw [cpList, List.length_cons, List.range_succ_eq_map, List.map_cons,
    List.foldl_cons]
  have h0 : cpVal val (t0 :: ts2) 0 = (t0.trackID, 0) := by
    apply Prod.ext
    · rfl
    · exact hcpz 0
  rw [h0]
  have hstep : smaxStep (-1, -1) (t0.trackID, (0 : ℚ)) = ((0 : ℚ), t0.trackID) := by
    unfold smaxStep
    rw [if_pos (by norm_num : ((-1, -1) : ℚ × Int).1 < (t0.trackID, (0 : ℚ)).2)]
  rw [hstep]
  apply smax_const_of_le
  intro c hc
  obtain ⟨a, _, rfl⟩ := List.mem_map.mp hc
  rw [hcpz a]

/-- C9: when a hit has at least one contribution record but every
record carries zero energy and zero charge, the running maxima (which
start at -1) are claimed by the very first record, so the first
record's trackId is selected dominant by both energy and charge; both
totals are zero, so the emitted fractions are the division-by-zero
boundary values; and any entry emitted for that trackId carries both
dominance flags set. -/
theorem all_zero_first_record_dominant (t0 : TrackIDE) (ts2 : List TrackIDE)
    (hE : ∀ t ∈ t0 :: ts2, t.energy = 0)
    (hN : ∀ t ∈ t0 :: ts2, t.numElectrons = 0) :
    (accumHit (t0 :: ts2)).maxtrkid = t0.trackID ∧
    (accumHit (t0 :: ts2)).maxntrkid = t0.trackID ∧
    (accumHit (t0 :: ts2)).tote = 0 ∧
    (accumHit (t0 :: ts2)).totn = 0 ∧
    ∀ ps i_h e, e ∈ emitHit ps i_h (accumHit (t0 :: ts2)) →
      e.trackId = t0.trackID →
      e.bthmd.isMaxIDE = true ∧ e.bthmd.isMaxIDEN = true := by
  have hpairE := accumHit_maxE (t0 :: ts2)
  rw [smax_all_zero (·.energy) t0 ts2 hE] at hpairE
  have hpairN := accumHit_maxN (t0 :: ts2)
  rw [smax_all_zero (·.numElectrons) t0 ts2 hN] at hpairN
  have hmax : (accumHit (t0 :: ts2)).maxtrkid = t0.trackID := congrArg Prod.snd hpairE
  have hmaxn : (accumHit (t0 :: ts2)).maxntrkid = t0.trackID := congrArg Prod.snd hpairN
  have htote : (accumHit (t0 :: ts2)).tote = 0 := by
    rw [accumHit_tote]
    unfold totalFor
    apply List.sum_eq_zero
    intro x hx
    obtain ⟨t, ht, rfl⟩ := List.mem_map.mp hx
    exact hE t ht
  have htotn : (accumHit (t0 :: ts2)).totn = 0 := by
    rw [accumHit_totn]
    unfold totalFor
    apply List.sum_eq_zero
    intro x hx
    obtain ⟨t, ht, rfl⟩ := List.mem_map.mp hx
    exact hN t ht
  refine ⟨hmax, hmaxn, htote, htotn, ?_⟩
  intro ps i_h e he hek
  obtain ⟨_, _, _, _, _, hflagE, hflagN⟩ := mem_emitHit_fields ps i_h _ e he
  rw [hflagE, hflagN, hek, hmax, hmaxn]
  exact ⟨by simp, by simp⟩

/-- C9 witness: two all-zero records with trackIds 3 then 4; trackId 3
is selected dominant by both energy and charge, and its emitted entry
(with particles resolving both) carries both flags. -/
theorem all_zero_first_record_dominant_witness :
    ((∀ t ∈ (⟨3, 0, 0⟩ : TrackIDE) :: [⟨4, 0, 0⟩], t.energy = 0) ∧
     (∀ t ∈ (⟨3, 0, 0⟩ : TrackIDE) :: [⟨4, 0, 0⟩], t.numElectrons = 0)) ∧
    ((accumHit ((⟨3, 0, 0⟩ : TrackIDE) :: [⟨4, 0, 0⟩])).maxtrkid = (3 : Int) ∧
     (accumHit ((⟨3, 0, 0⟩ : TrackIDE) :: [⟨4, 0, 0⟩])).maxntrkid = (3 : Int) ∧
     (accumHit ((⟨3, 0, 0⟩ : TrackIDE) :: [⟨4, 0, 0⟩])).tote = 0 ∧
     (accumHit ((⟨3, 0, 0⟩ : TrackIDE) :: [⟨4, 0, 0⟩])).totn = 0 ∧
     ∀ ps i_h e, e ∈ emitHit ps i_h (accumHit ((⟨3, 0, 0⟩ : TrackIDE) :: [⟨4, 0, 0⟩])) →
       e.trackId = (3 : Int) →
       e.bthmd.isMaxIDE = true ∧ e.bthmd.isMaxIDEN = true) :=
  ⟨⟨by intro t ht; fin_cases ht <;> norm_num,
    by intro t ht; fin_cases ht <;> norm_num⟩,
   all_zero_first_record_dominant ⟨3, 0, 0⟩ [⟨4, 0, 0⟩]
     (by intro t ht; fin_cases ht <;> norm_num)
     (by intro t ht; fin_cases ht <;> norm_num)⟩
